import Mathlib

/-!
Shallow embedding of the IoT-network routing backend consisting of
`energy_model.py`, `graph_simulation.py` and `routing_algorithms.py`.

Modelling conventions:
* Python integers are `ℤ`/`ℕ`; Python floats are `ℚ` (the spec states the
  numeric formulas exactly, and every constant appearing in the code is an
  exact decimal).
* A `networkx` graph is an association list of nodes `(id, energy)` together
  with a list of undirected edges `(u, v, data)`; edge data carries the
  `distance` attribute (set at edge creation) and the `energy_cost`
  attribute (overwritten by `assign_energy_costs`).
* Randomness (`random.choice`) is modelled by an explicit `pick` index
  parameter choosing an element of the candidate list.
* `nx.shortest_path(G, s, t, weight = w)` (Dijkstra over non-negative
  weights) is modelled as: raise (return `none`) when `s` or `t` is not a
  node of `G`, otherwise return a path of minimal total `w`-weight among
  the simple paths from `s` to `t`, `none` when there is no such path.
  The tie-break among equal-weight paths is implementation defined in the
  source ("some valid shortest path"); the model picks the first minimal
  path in its enumeration order, which is one consistent deterministic
  tie-break.
-/

/-- Per-edge attribute record of the `networkx` graph: `distance` is set
when the edge is created, `energy_cost` is (re)computed by
`assign_energy_costs`. -/
structure EdgeData where
  distance : ℚ
  energy_cost : ℚ
deriving DecidableEq, Repr

/-- The `networkx` graph owned by `IoTNetwork`: nodes carry an integer
`energy` attribute, edges carry `EdgeData`. -/
structure Graph where
  nodes : List (ℕ × ℤ)
  edges : List (ℕ × ℕ × EdgeData)
deriving DecidableEq, Repr

/-- The list of node ids of the graph. -/
def nodeIds (g : Graph) : List ℕ := g.nodes.map Prod.fst

/-- Energy lookup on a node association list: the energy attribute of the
first entry carrying the given id. -/
def energyOfL (ns : List (ℕ × ℤ)) (n : ℕ) : Option ℤ :=
  (ns.find? (fun q => q.1 == n)).map Prod.snd

/-- Model of the access `graph.nodes[n][energy]`: the energy attribute of
node `n`. -/
def energyOf (g : Graph) (n : ℕ) : Option ℤ :=
  energyOfL g.nodes n

/-- Does edge record `e` join the unordered pair `{u, v}`? -/
def edgeMatch (u v : ℕ) (e : ℕ × ℕ × EdgeData) : Bool :=
  (e.1 == u && e.2.1 == v) || (e.1 == v && e.2.1 == u)

/-- Model of the access `graph[u][v]`: the data of the edge joining `u` and
`v`, `none` when no
such edge exists (in Python this access raises `KeyError`; all uses below
are on pairs for which the edge exists). -/
def edgeLookup (g : Graph) (u v : ℕ) : Option EdgeData :=
  (g.edges.find? (edgeMatch u v)).map (fun e => e.2.2)

/-- Embedding of `advanced_energy_model` from `energy_model.py`:
`E_tx = E_elec * packet_size + E_amp * packet_size * distance ** 2` with
`E_elec = 0.5`, `E_amp = 0.02`.  A pure function of its arguments. -/
def advanced_energy_model (distance : ℚ) (packet_size : ℚ) : ℚ :=
  let E_elec : ℚ := 0.5
  let E_amp : ℚ := 0.02
  E_elec * packet_size + E_amp * packet_size * distance ^ 2

/-- Embedding of `IoTNetwork.assign_energy_costs`: for every edge,
overwrite the energy_cost attribute with
`energy_model_fn(distance, packet_size)`.
(The source reads the distance attribute with a default of 1; the default never fires
because every edge is created with a `distance` attribute, which the
embedding records as the always-present `distance` field.) -/
def assign_energy_costs (g : Graph) (fn : ℚ → ℚ → ℚ) (packet_size : ℚ) : Graph :=
  { g with
    edges := g.edges.map (fun e =>
      (e.1, e.2.1, { e.2.2 with energy_cost := fn e.2.2.distance packet_size })) }

/-- Overwrite the `energy` attribute of every entry of id `n` by `f` of its
old value (entries of other ids are untouched). -/
def updateEnergy (ns : List (ℕ × ℤ)) (n : ℕ) (f : ℤ → ℤ) : List (ℕ × ℤ) :=
  ns.map (fun q => if q.1 == n then (q.1, f q.2) else q)

/-- Embedding of `IoTNetwork.fail_random_node`: pick one of the nodes with
`energy > 0` (the random choice is the `pick` index into that list), set
its energy to 0 and return its id; return `None` and leave the graph
untouched when no alive node exists. -/
def fail_random_node (g : Graph) (pick : ℕ) : Option ℕ × Graph :=
  let alive_nodes := (g.nodes.filter (fun q => decide (0 < q.2))).map Prod.fst
  match alive_nodes with
  | [] => (none, g)
  | a :: rest =>
      let node := (a :: rest).getD (pick % (a :: rest).length) a
      (some node, { g with nodes := updateEnergy g.nodes node (fun _ => 0) })

/-- Model of `alive_graph.remove_node(n)` of `networkx`: removes every node entry of
id `n` and every edge incident to `n`. -/
def remove_node (g : Graph) (n : ℕ) : Graph :=
  { nodes := g.nodes.filter (fun q => !(q.1 == n)),
    edges := g.edges.filter (fun e => !(e.1 == n) && !(e.2.1 == n)) }

/-- The ids scheduled for removal by `RoutingEngine._alive_subgraph`: the
snapshot `list(alive_graph.nodes(data=True))` restricted to entries with
energy attribute `<= 0`. -/
def deadIds (g : Graph) : List ℕ :=
  (g.nodes.filter (fun q => decide (q.2 ≤ 0))).map Prod.fst

/-- Embedding of the helper producing the alive subgraph (the source names
it with a leading underscore): copy the graph and remove every node
of energy `<= 0` (each removal also drops the incident edges). -/
def alive_subgraph (graph : Graph) : Graph :=
  (deadIds graph).foldl remove_node graph

/-- The `networkx` neighbourhood of `u`: the opposite endpoints of the
edges incident to `u`. -/
def neighbors (g : Graph) (u : ℕ) : List ℕ :=
  (g.edges.filter (fun e => e.1 == u)).map (fun e => e.2.1) ++
    (g.edges.filter (fun e => e.2.1 == u)).map (fun e => e.1)

/-- Enumerate the simple paths ending at `t`, starting from `c`, avoiding
`visited`, with at most `fuel` nodes.  This is the search space Dijkstra
ranges over; `nx.shortest_path` returns a weight-minimal element of it. -/
def pathsFrom (g : Graph) (t : ℕ) : ℕ → ℕ → List ℕ → List (List ℕ)
  | 0, _, _ => []
  | fuel + 1, c, visited =>
      if c == t then [[t]]
      else
        ((neighbors g c).filter (fun m => !((c :: visited).contains m))).flatMap
          (fun m => (pathsFrom g t fuel m (c :: visited)).map (fun p => c :: p))

/-- All simple paths of `g` from `s` to `t` (fuel one more than the node
count, enough for any simple path). -/
def simplePaths (g : Graph) (s t : ℕ) : List (List ℕ) :=
  pathsFrom g t (g.nodes.length + 1) s []

/-- Total `w`-weight of a path, as Dijkstra accumulates it: one edge-data
weight per consecutive pair.  (`nx` substitutes 1 for a missing weight
attribute; in this embedding both attributes are always present, and the
`none` branch — a consecutive pair with no edge at all — is never taken on
the paths the search produces.) -/
def pathWeight (g : Graph) (w : EdgeData → ℚ) : List ℕ → ℚ
  | u :: v :: rest =>
      (match edgeLookup g u v with
       | some d => w d
       | none => 1) + pathWeight g w (v :: rest)
  | _ => 0

/-- First weight-minimal element of a list of paths (`none` on the empty
list): the model of the choice Dijkstra makes among candidate paths. -/
def minBy (f : List ℕ → ℚ) : List (List ℕ) → Option (List ℕ)
  | [] => none
  | p :: ps => some (ps.foldl (fun best q => if f q < f best then q else best) p)

/-- Embedding of `RoutingEngine.shortest_path_distance`: shortest path by the
`distance` weight over the alive subgraph; `none` models the
`nx.NetworkXNoPath` raised when the source or target is absent from the
alive subgraph (`nx.NodeNotFound`) or no path connects them. -/
def shortest_path_distance (graph : Graph) (source target : ℕ) : Option (List ℕ) :=
  let alive_graph := alive_subgraph graph
  if source ∈ nodeIds alive_graph ∧ target ∈ nodeIds alive_graph then
    minBy (pathWeight alive_graph (fun d => d.distance)) (simplePaths alive_graph source target)
  else none

/-- Embedding of `RoutingEngine.shortest_path_energy`: identical to
`shortest_path_distance` with the `energy_cost` weight. -/
def shortest_path_energy (graph : Graph) (source target : ℕ) : Option (List ℕ) :=
  let alive_graph := alive_subgraph graph
  if source ∈ nodeIds alive_graph ∧ target ∈ nodeIds alive_graph then
    minBy (pathWeight alive_graph (fun d => d.energy_cost)) (simplePaths alive_graph source target)
  else none

/-- The attribute `w` of the edge joining `u` and `v`, with the
`data.get(attr, 0)` default of the cost aggregators. -/
def edgeAttr (g : Graph) (u v : ℕ) (w : EdgeData → ℚ) : ℚ :=
  match edgeLookup g u v with
  | some d => w d
  | none => 0

/-- Embedding of `RoutingEngine.distance_cost`: fold the distance
attribute of `graph[u][v]` (default 0) into a running total
over the consecutive pairs `zip(path, path[1:])`. -/
def distance_cost (graph : Graph) (path : List ℕ) : ℚ :=
  (path.zip path.tail).foldl
    (fun total uv => total + edgeAttr graph uv.1 uv.2 EdgeData.distance) 0

/-- Embedding of `RoutingEngine.energy_cost`: fold the energy_cost
attribute of `graph[u][v]` (default 0) into a running total
over the consecutive pairs `zip(path, path[1:])`. -/
def energy_cost (graph : Graph) (path : List ℕ) : ℚ :=
  (path.zip path.tail).foldl
    (fun total uv => total + edgeAttr graph uv.1 uv.2 EdgeData.energy_cost) 0

/-- Python 3 `round` with no digits argument: nearest integer, ties to
even. -/
def pyRound (x : ℚ) : ℤ :=
  if x - ⌊x⌋ < 1 / 2 then ⌊x⌋
  else if 1 / 2 < x - ⌊x⌋ then ⌊x⌋ + 1
  else if ⌊x⌋ % 2 = 0 then ⌊x⌋ else ⌊x⌋ + 1

/-- The per-node drain amount of `apply_battery_drain`:
`max(1, int(round(2 * packet_size)))`. -/
def drain_of (packet_size : ℚ) : ℤ :=
  max 1 (pyRound (2 * packet_size))

/-- Embedding of `RoutingEngine.apply_battery_drain`: every node of `path` loses
`drain_of packet_size` energy, clamped at 0
(the source writes `max(0, current - drain_amount)` into the energy
attribute).  The source guards each write with a test that the energy
attribute exists;
in the embedding every node entry carries its energy, and a `path`
element with no node entry leaves the list unchanged. -/
def apply_battery_drain (graph : Graph) (path : List ℕ) (packet_size : ℚ) : Graph :=
  let drain_amount := drain_of packet_size
  { graph with
    nodes := path.foldl
      (fun ns node => updateEnergy ns node (fun current => max 0 (current - drain_amount)))
      graph.nodes }

/-- State-passing rendering of `shortest_path_distance`: the body copies
the input graph (`_alive_subgraph` starts from `graph.copy()`) and every
mutation (`remove_node`) hits the copy, so the state of `graph` after the
call is the input state. -/
def shortest_path_distance_st (graph : Graph) (source target : ℕ) :
    Option (List ℕ) × Graph :=
  (shortest_path_distance graph source target, graph)

/-- State-passing rendering of `shortest_path_energy`; see
`shortest_path_distance_st`. -/
def shortest_path_energy_st (graph : Graph) (source target : ℕ) :
    Option (List ℕ) × Graph :=
  (shortest_path_energy graph source target, graph)

/-- The `networkx` graph invariant: every edge joins two existing nodes. -/
def wellFormed (g : Graph) : Prop :=
  ∀ e ∈ g.edges, e.1 ∈ nodeIds g ∧ e.2.1 ∈ nodeIds g

instance : DecidablePred wellFormed := fun g =>
  List.decidableBAll _ g.edges

/-- Bool test that consecutive nodes of a path are joined by an edge. -/
def isPathChain (g : Graph) : List ℕ → Bool
  | u :: v :: rest => (edgeLookup g u v).isSome && isPathChain g (v :: rest)
  | _ => true

/-- A path of `g` from `s` to `t` in the sense of the spec: nonempty node
sequence starting at `s`, ending at `t`, without repetition, through nodes
of `g`, with consecutive nodes joined by edges of `g`. -/
def validPath (g : Graph) (s t : ℕ) (p : List ℕ) : Prop :=
  p.head? = some s ∧ p.getLast? = some t ∧ p.Nodup ∧
    (∀ x ∈ p, x ∈ nodeIds g) ∧ isPathChain g p = true

/-- Concrete three-node topology used to instantiate theorems with
hypotheses: node 2 is dead (energy 0), nodes 0 and 1 are alive and joined
by an edge; node 2 hangs off node 1. -/
def GW1 : Graph :=
  { nodes := [(0, 80), (1, 75), (2, 0)],
    edges := [(0, 1, ⟨3, 1⟩), (1, 2, ⟨4, 1⟩)] }

/-- Concrete two-node topology with a single edge, hence a unique route in
either direction. -/
def GW6 : Graph :=
  { nodes := [(0, 90), (1, 85)],
    edges := [(0, 1, ⟨7, 2⟩)] }

/-- Concrete topology in which every node is already at energy 0. -/
def GW7 : Graph :=
  { nodes := [(0, 0), (1, 0)],
    edges := [(0, 1, ⟨2, 1⟩)] }

lemma energyOfL_cons (q : ℕ × ℤ) (ns : List (ℕ × ℤ)) (m : ℕ) :
    energyOfL (q :: ns) m = if q.1 == m then some q.2 else energyOfL ns m := by
  simp only [energyOfL, List.find?_cons]
  cases h : q.1 == m <;> simp [h]

lemma energyOfL_updateEnergy_eq (ns : List (ℕ × ℤ)) (n : ℕ) (f : ℤ → ℤ) :
    energyOfL (updateEnergy ns n f) n = (energyOfL ns n).map f := by
  induction ns with
  | nil => rfl
  | cons q ns ih =>
      simp only [updateEnergy, List.map_cons] at *
      by_cases h : q.1 = n
      · simp [energyOfL_cons, h]
      · have hb : (q.1 == n) = false := by simpa using h
        simp only [hb, if_neg, Bool.false_eq_true, ite_false]
        rw [energyOfL_cons, energyOfL_cons, hb]
        simpa [updateEnergy] using ih

lemma energyOfL_updateEnergy_ne (ns : List (ℕ × ℤ)) (n m : ℕ) (f : ℤ → ℤ)
    (h : m ≠ n) :
    energyOfL (updateEnergy ns n f) m = energyOfL ns m := by
  induction ns with
  | nil => rfl
  | cons q ns ih =>
      simp only [updateEnergy, List.map_cons] at *
      by_cases hq : q.1 = n
      · have hb : (q.1 == n) = true := by simpa using hq
        have hm : (q.1 == m) = false := by
          simp only [beq_eq_false_iff_ne, ne_eq]
          exact fun hc => h (hc ▸ hq ▸ rfl)
        simp only [hb, ite_true]
        rw [energyOfL_cons, energyOfL_cons]
        simp only [hm]
        simpa [updateEnergy] using ih
      · have hb : (q.1 == n) = false := by simpa using hq
        simp only [hb, Bool.false_eq_true, ite_false]
        rw [energyOfL_cons, energyOfL_cons]
        cases hqm : q.1 == m
        · simpa [updateEnergy] using ih
        · rfl

lemma energyOfL_foldl_update_not_mem (f : ℤ → ℤ) (path : List ℕ) (n : ℕ)
    (hn : n ∉ path) :
    ∀ ns, energyOfL (path.foldl (fun a m => updateEnergy a m f) ns) n = energyOfL ns n := by
  induction path with
  | nil => intro ns; rfl
  | cons a rest ih =>
      intro ns
      simp only [List.foldl_cons]
      have hna : n ≠ a := fun hc => hn (hc ▸ List.mem_cons_self a rest)
      rw [ih (fun hc => hn (List.mem_cons_of_mem a hc))]
      exact energyOfL_updateEnergy_ne ns a n f hna

lemma energyOfL_foldl_update_mem (f : ℤ → ℤ) (path : List ℕ) (n : ℕ)
    (hnd : path.Nodup) (hn : n ∈ path) :
    ∀ ns, energyOfL (path.foldl (fun a m => updateEnergy a m f) ns) n =
      (energyOfL ns n).map f := by
  induction path with
  | nil => cases hn
  | cons a rest ih =>
      intro ns
      simp only [List.foldl_cons]
      rcases List.mem_cons.mp hn with h | h
      · subst h
        have hnr : n ∉ rest := (List.nodup_cons.mp hnd).1
        rw [energyOfL_foldl_update_not_mem f rest n hnr]
        exact energyOfL_updateEnergy_eq ns n f
      · have hna : n ≠ a := by
          rintro rfl
          exact (List.nodup_cons.mp hnd).1 h
        rw [ih (List.nodup_cons.mp hnd).2 h]
        rw [energyOfL_updateEnergy_ne ns a n f hna]

lemma energyOfL_foldl_update_rel (f : ℤ → ℤ)
    (hf : ∀ x, 0 ≤ x → 0 ≤ f x ∧ f x ≤ x) (path : List ℕ) :
    ∀ (ns : List (ℕ × ℤ)) (n : ℕ) (e : ℤ), energyOfL ns n = some e →
      ∃ e2, energyOfL (path.foldl (fun a m => updateEnergy a m f) ns) n = some e2 ∧
        (0 ≤ e → 0 ≤ e2 ∧ e2 ≤ e) := by
  induction path with
  | nil => exact fun ns n e he => ⟨e, he, fun h0 => ⟨h0, le_refl e⟩⟩
  | cons a rest ih =>
      intro ns n e he
      simp only [List.foldl_cons]
      by_cases han : n = a
      · subst han
        have h1 : energyOfL (updateEnergy ns n f) n = some (f e) := by
          rw [energyOfL_updateEnergy_eq, he]; rfl
        obtain ⟨e2, he2, hrel⟩ := ih (updateEnergy ns n f) n (f e) h1
        refine ⟨e2, he2, fun h0 => ?_⟩
        obtain ⟨hf0, hfle⟩ := hf e h0
        obtain ⟨h20, h2le⟩ := hrel hf0
        exact ⟨h20, le_trans h2le hfle⟩
      · have h1 : energyOfL (updateEnergy ns a f) n = some e := by
          rw [energyOfL_updateEnergy_ne ns a n f han, he]
        exact ih (updateEnergy ns a f) n e h1

lemma pyRound_intCast (z : ℤ) : pyRound (z : ℚ) = z := by
  simp [pyRound]

lemma drain_of_one : drain_of 1 = 2 := by
  have : ((2 : ℚ)) = ((2 : ℤ) : ℚ) := by norm_num
  simp only [drain_of]
  rw [show (2 : ℚ) * 1 = ((2 : ℤ) : ℚ) by norm_num, pyRound_intCast]
  rfl

lemma drain_of_five : drain_of 5 = 10 := by
  simp only [drain_of]
  rw [show (2 : ℚ) * 5 = ((10 : ℤ) : ℚ) by norm_num, pyRound_intCast]
  rfl

lemma drain_of_ten : drain_of 10 = 20 := by
  simp only [drain_of]
  rw [show (2 : ℚ) * 10 = ((20 : ℤ) : ℚ) by norm_num, pyRound_intCast]
  rfl

lemma one_le_drain_of (s : ℚ) : 1 ≤ drain_of s := le_max_left 1 _

/-- C3: battery drain rule — for every topology, path and packet size,
apply_battery_drain gives each node of the path the new energy
max(0, current_energy - drain_amount) with
drain_amount = max(1, round(2 * packet_size)); packet sizes 1/5/10 give
drains 2/10/20, and with packet_size 1 a node at energy 3 ends at 1, a
node at 1 ends at 0, and a node at 0 stays at 0. -/
theorem battery_drain_rule (g : Graph) (path : List ℕ) (packet_size : ℚ)
    (n : ℕ) (e : ℤ) (hpath : path.Nodup) (hn : n ∈ path)
    (he : energyOf g n = some e) :
    energyOf (apply_battery_drain g path packet_size) n
      = some (max 0 (e - drain_of packet_size)) ∧
    drain_of 1 = 2 ∧ drain_of 5 = 10 ∧ drain_of 10 = 20 ∧
    max 0 ((3 : ℤ) - drain_of 1) = 1 ∧ max 0 ((1 : ℤ) - drain_of 1) = 0 ∧
    max 0 ((0 : ℤ) - drain_of 1) = 0 := by
  refine ⟨?_, drain_of_one, drain_of_five, drain_of_ten, ?_, ?_, ?_⟩
  · simp only [apply_battery_drain, energyOf] at *
    rw [energyOfL_foldl_update_mem _ path n hpath hn g.nodes, he]
    rfl
  · rw [drain_of_one]; decide
  · rw [drain_of_one]; decide
  · rw [drain_of_one]; decide

/-- C4: node-energy invariant and monotonicity — a node energy that is a
non-negative integer stays non-negative and never increases under
apply_battery_drain and fail_random_node; it stays at most 100 when it
started at most 100, and energy 0 is absorbing for both operations. -/
theorem node_energy_invariant (g : Graph) (path : List ℕ) (packet_size : ℚ)
    (pick : ℕ) (n : ℕ) (e : ℤ) (he : energyOf g n = some e) (he0 : 0 ≤ e) :
    (∃ e2, energyOf (apply_battery_drain g path packet_size) n = some e2 ∧
      0 ≤ e2 ∧ e2 ≤ e ∧ (e = 0 → e2 = 0) ∧ (e ≤ 100 → e2 ≤ 100)) ∧
    (∃ e2, energyOf (fail_random_node g pick).2 n = some e2 ∧
      0 ≤ e2 ∧ e2 ≤ e ∧ (e = 0 → e2 = 0) ∧ (e ≤ 100 → e2 ≤ 100)) := by
  simp only [energyOf] at he
  constructor
  · have hf : ∀ x : ℤ, 0 ≤ x →
        0 ≤ max 0 (x - drain_of packet_size) ∧ max 0 (x - drain_of packet_size) ≤ x := by
      intro x hx
      refine ⟨le_max_left 0 _, max_le hx ?_⟩
      have h1 : (0 : ℤ) ≤ drain_of packet_size := le_trans zero_le_one (one_le_drain_of _)
      omega
    obtain ⟨e2, he2, hrel⟩ :=
      energyOfL_foldl_update_rel _ hf path g.nodes n e he
    obtain ⟨h0, hle⟩ := hrel he0
    refine ⟨e2, ?_, h0, hle, fun hz => le_antisymm (hz ▸ hle) h0, fun h100 => le_trans hle h100⟩
    simpa only [apply_battery_drain, energyOf] using he2
  · cases halive : (g.nodes.filter (fun q => decide (0 < q.2))).map Prod.fst with
    | nil =>
        refine ⟨e, ?_, he0, le_refl e, fun hz => hz, fun h => h⟩
        simp only [fail_random_node, halive, energyOf]
        exact he
    | cons a rest =>
        by_cases hn2 : n = (a :: rest).getD (pick % (a :: rest).length) a
        · refine ⟨0, ?_, le_refl 0, he0, fun _ => rfl, fun _ => by norm_num⟩
          simp only [fail_random_node, halive, energyOf]
          rw [← hn2, energyOfL_updateEnergy_eq, he]
          rfl

        · refine ⟨e, ?_, he0, le_refl e, fun hz => hz, fun h => h⟩
          simp only [fail_random_node, halive, energyOf]
          rw [energyOfL_updateEnergy_ne _ _ _ _ hn2]
          exact he

lemma nodeIds_updateEnergy (ns : List (ℕ × ℤ)) (n : ℕ) (f : ℤ → ℤ) :
    (updateEnergy ns n f).map Prod.fst = ns.map Prod.fst := by
  induction ns with
  | nil => rfl
  | cons q ns ih =>
      have hhead : ((if q.1 == n then (q.1, f q.2) else q) : ℕ × ℤ).1 = q.1 := by
        cases h : q.1 == n <;> simp [h]
      calc (updateEnergy (q :: ns) n f).map Prod.fst
          = ((if q.1 == n then (q.1, f q.2) else q) : ℕ × ℤ).1
              :: (updateEnergy ns n f).map Prod.fst := rfl
        _ = q.1 :: ns.map Prod.fst := by rw [hhead, ih]
        _ = (q :: ns).map Prod.fst := rfl

lemma energyOfL_isSome_of_mem (ns : List (ℕ × ℤ)) (m : ℕ)
    (h : ∃ q ∈ ns, q.1 = m) : ∃ e, energyOfL ns m = some e := by
  obtain ⟨q, hq, hqm⟩ := h
  have : (ns.find? (fun r => r.1 == m)).isSome := by
    rw [List.find?_isSome]
    exact ⟨q, hq, by simpa using hqm⟩
  obtain ⟨r, hr⟩ := Option.isSome_iff_exists.mp this
  exact ⟨r.2, by simp [energyOfL, hr]⟩

/-- C7: failure sentinel — when every node has energy 0, fail_random_node
returns the sentinel `none` and leaves the state unchanged; otherwise it
returns the id of a node whose energy was positive before the call and
sets that node energy to 0, leaving edges, the node-id structure and all
other node energies untouched. -/
theorem fail_random_node_spec (g : Graph) (pick : ℕ) :
    ((∀ q ∈ g.nodes, q.2 = 0) → fail_random_node g pick = (none, g)) ∧
    ((∃ q ∈ g.nodes, 0 < q.2) →
      ∃ m, (fail_random_node g pick).1 = some m ∧
        (∃ q ∈ g.nodes, q.1 = m ∧ 0 < q.2) ∧
        (fail_random_node g pick).2.edges = g.edges ∧
        nodeIds (fail_random_node g pick).2 = nodeIds g ∧
        energyOf (fail_random_node g pick).2 m = some 0 ∧
        (∀ k, k ≠ m → energyOf (fail_random_node g pick).2 k = energyOf g k)) := by
  constructor
  · intro hall
    have hnil : (g.nodes.filter (fun q => decide (0 < q.2))).map Prod.fst = [] := by
      rw [List.map_eq_nil_iff, List.filter_eq_nil_iff]
      intro q hq
      simp [hall q hq]
    simp [fail_random_node, hnil]
  · intro hex
    cases halive : (g.nodes.filter (fun q => decide (0 < q.2))).map Prod.fst with
    | nil =>
        exfalso
        obtain ⟨q, hq, hq0⟩ := hex
        have : q.1 ∈ (g.nodes.filter (fun r => decide (0 < r.2))).map Prod.fst :=
          List.mem_map_of_mem _ (List.mem_filter.mpr ⟨hq, by simpa using hq0⟩)
        rw [halive] at this
        cases this
    | cons a rest =>
        set m := (a :: rest).getD (pick % (a :: rest).length) a with hm
        have hmem : m ∈ a :: rest := by
          have hlt : pick % (a :: rest).length < (a :: rest).length :=
            Nat.mod_lt _ (by simp)
          rw [hm, List.getD_eq_getElem _ _ hlt]
          exact List.getElem_mem hlt
        have hmem2 : m ∈ (g.nodes.filter (fun q => decide (0 < q.2))).map Prod.fst := by
          rw [halive]; exact hmem
        obtain ⟨q, hqf, hqm⟩ := List.mem_map.mp hmem2
        have hq2 := List.mem_filter.mp hqf
        have hmg : ∃ q ∈ g.nodes, q.1 = m := ⟨q, hq2.1, hqm⟩
        obtain ⟨e0, he0⟩ := energyOfL_isSome_of_mem g.nodes m hmg
        refine ⟨m, ?_, ⟨q, hq2.1, hqm, by simpa using hq2.2⟩, ?_, ?_, ?_, ?_⟩
        · simp [fail_random_node, halive, hm]
        · simp [fail_random_node, halive, hm]
        · simp only [fail_random_node, halive, nodeIds]
          exact nodeIds_updateEnergy _ _ _
        · simp only [fail_random_node, halive, energyOf]
          rw [← hm, energyOfL_updateEnergy_eq, he0]
          rfl
        · intro k hk
          simp only [fail_random_node, halive, energyOf]
          rw [← hm, energyOfL_updateEnergy_ne _ _ _ _ hk]

/-- C5: deterministic energy model formula — advanced_energy_model
computes exactly 0.5 * packet_size + 0.02 * packet_size * distance ^ 2;
in particular model(5, 1) = 1.0 and model(10, 1) = 2.5.  Being a pure
function, identical inputs always yield the identical output. -/
theorem deterministic_energy_model (d s : ℚ) :
    advanced_energy_model d s = 0.5 * s + 0.02 * s * d ^ 2 ∧
    advanced_energy_model 5 1 = 1 ∧
    advanced_energy_model 10 1 = 2.5 := by
  refine ⟨rfl, ?_, ?_⟩ <;> norm_num [advanced_energy_model]

/-- C8: idempotence of cost assignment for the deterministic model —
assigning energy costs twice with advanced_energy_model and the same
packet size produces the same graph as assigning once, and after one call
every edge carries energy_cost = model(distance, packet_size). -/
theorem assign_energy_costs_idempotent (g : Graph) (packet_size : ℚ) :
    assign_energy_costs (assign_energy_costs g advanced_energy_model packet_size)
        advanced_energy_model packet_size
      = assign_energy_costs g advanced_energy_model packet_size ∧
    ∀ e ∈ (assign_energy_costs g advanced_energy_model packet_size).edges,
      e.2.2.energy_cost = advanced_energy_model e.2.2.distance packet_size := by
  constructor
  · show Graph.mk _ _ = Graph.mk _ _
    simp only [assign_energy_costs, List.map_map]
    rfl
  · intro e he
    simp only [assign_energy_costs] at he
    obtain ⟨e0, _, rfl⟩ := List.mem_map.mp he
    rfl

/-- C10: routing queries are pure with respect to the topology — the
state-passing renderings of both shortest-path queries return the input
topology unchanged (every node energy and every edge attribute included)
while computing the same result as the queries themselves, because the
alive-node filtering works on a copy of the graph. -/
theorem routing_queries_pure (g : Graph) (source target : ℕ) :
    (shortest_path_distance_st g source target).2 = g ∧
    (shortest_path_energy_st g source target).2 = g ∧
    (shortest_path_distance_st g source target).1 = shortest_path_distance g source target ∧
    (shortest_path_energy_st g source target).1 = shortest_path_energy g source target ∧
    (∀ n, energyOf (shortest_path_distance_st g source target).2 n = energyOf g n) ∧
    (∀ u v, edgeLookup (shortest_path_energy_st g source target).2 u v = edgeLookup g u v) :=
  ⟨rfl, rfl, rfl, rfl, fun _ => rfl, fun _ _ => rfl⟩

lemma minBy_foldl_spec (f : List ℕ → ℚ) :
    ∀ (ps : List (List ℕ)) (b : List ℕ),
      (ps.foldl (fun best q => if f q < f best then q else best) b) ∈ b :: ps ∧
      f (ps.foldl (fun best q => if f q < f best then q else best) b) ≤ f b ∧
      ∀ q ∈ ps, f (ps.foldl (fun best q => if f q < f best then q else best) b) ≤ f q := by
  intro ps
  induction ps with
  | nil => exact fun b => ⟨List.mem_cons_self b [], le_refl _, fun q hq => absurd hq (List.not_mem_nil q)⟩
  | cons p ps ih =>
      intro b
      simp only [List.foldl_cons]
      obtain ⟨hmem, hle, hall⟩ := ih (if f p < f b then p else b)
      have hble : f (if f p < f b then p else b) ≤ f b := by
        split
        · exact le_of_lt (by assumption)
        · exact le_refl _
      have hple : f (if f p < f b then p else b) ≤ f p := by
        split
        · exact le_refl _
        · exact le_of_not_lt (by assumption)
      refine ⟨?_, le_trans hle hble, ?_⟩
      · rcases List.mem_cons.mp hmem with h | h
        · rw [h]
          split
          · exact List.mem_cons_of_mem _ (List.mem_cons_self p ps)
          · exact List.mem_cons_self b _
        · exact List.mem_cons_of_mem _ (List.mem_cons_of_mem _ h)
      · intro q hq
        rcases List.mem_cons.mp hq with h | h
        · rw [h]
          exact le_trans hle hple
        · exact hall q h

lemma minBy_mem (f : List ℕ → ℚ) (l : List (List ℕ)) (p : List ℕ)
    (h : minBy f l = some p) : p ∈ l := by
  cases l with
  | nil => cases h
  | cons b ps =>
      simp only [minBy, Option.some.injEq] at h
      exact h ▸ (minBy_foldl_spec f ps b).1

lemma minBy_le (f : List ℕ → ℚ) (l : List (List ℕ)) (p : List ℕ)
    (h : minBy f l = some p) : ∀ q ∈ l, f p ≤ f q := by
  cases l with
  | nil => cases h
  | cons b ps =>
      simp only [minBy, Option.some.injEq] at h
      obtain ⟨_, hle, hall⟩ := minBy_foldl_spec f ps b
      intro q hq
      rcases List.mem_cons.mp hq with hqb | hqs
      · exact h ▸ hqb ▸ hle
      · exact h ▸ hall q hqs

lemma minBy_eq_none (f : List ℕ → ℚ) (l : List (List ℕ)) :
    minBy f l = none ↔ l = [] := by
  cases l <;> simp [minBy]

lemma foldl_add_shift {α : Type} (f : α → ℚ) :
    ∀ (l : List α) (a : ℚ),
      l.foldl (fun t x => t + f x) a = a + l.foldl (fun t x => t + f x) 0 := by
  intro l
  induction l with
  | nil => intro a; simp
  | cons x l ih =>
      intro a
      simp only [List.foldl_cons]
      rw [ih (a + f x), ih (0 + f x)]
      ring

lemma foldl_add_eq_sum {α : Type} (f : α → ℚ) :
    ∀ l : List α, l.foldl (fun t x => t + f x) 0 = (l.map f).sum := by
  intro l
  induction l with
  | nil => rfl
  | cons x l ih =>
      simp only [List.foldl_cons, List.map_cons, List.sum_cons]
      rw [foldl_add_shift, ih]
      ring

lemma edgeMatch_cases (u v : ℕ) (e : ℕ × ℕ × EdgeData) (h : edgeMatch u v e = true) :
    (e.1 = u ∧ e.2.1 = v) ∨ (e.1 = v ∧ e.2.1 = u) := by
  simp only [edgeMatch, Bool.or_eq_true, Bool.and_eq_true, beq_iff_eq] at h
  exact h

lemma edgeMatch_of_left (u v : ℕ) (e : ℕ × ℕ × EdgeData)
    (h1 : e.1 = u) (h2 : e.2.1 = v) : edgeMatch u v e = true := by
  simp [edgeMatch, h1, h2]

lemma edgeMatch_of_right (u v : ℕ) (e : ℕ × ℕ × EdgeData)
    (h1 : e.1 = v) (h2 : e.2.1 = u) : edgeMatch u v e = true := by
  simp [edgeMatch, h1, h2]

lemma mem_neighbors_iff (g : Graph) (u v : ℕ) :
    v ∈ neighbors g u ↔ ∃ e ∈ g.edges, edgeMatch u v e = true := by
  simp only [neighbors, List.mem_append, List.mem_map, List.mem_filter, beq_iff_eq]
  constructor
  · rintro (⟨e, ⟨he, h1⟩, h2⟩ | ⟨e, ⟨he, h1⟩, h2⟩)
    · exact ⟨e, he, edgeMatch_of_left u v e h1 h2⟩
    · exact ⟨e, he, edgeMatch_of_right u v e h2 h1⟩
  · rintro ⟨e, he, hm⟩
    rcases edgeMatch_cases u v e hm with ⟨h1, h2⟩ | ⟨h1, h2⟩
    · exact Or.inl ⟨e, ⟨he, h1⟩, h2⟩
    · exact Or.inr ⟨e, ⟨he, h2⟩, h1⟩

lemma edgeLookup_isSome_iff (g : Graph) (u v : ℕ) :
    (edgeLookup g u v).isSome = true ↔ ∃ e ∈ g.edges, edgeMatch u v e = true := by
  have h : (edgeLookup g u v).isSome = (g.edges.find? (edgeMatch u v)).isSome := by
    simp only [edgeLookup]
    cases g.edges.find? (edgeMatch u v) <;> rfl
  rw [h, List.find?_isSome]

lemma adj_iff_mem_neighbors (g : Graph) (u v : ℕ) :
    (edgeLookup g u v).isSome = true ↔ v ∈ neighbors g u := by
  rw [edgeLookup_isSome_iff, mem_neighbors_iff]

lemma mem_remove_node_nodes (g : Graph) (n : ℕ) (q : ℕ × ℤ) :
    q ∈ (remove_node g n).nodes ↔ q ∈ g.nodes ∧ q.1 ≠ n := by
  simp [remove_node]

lemma mem_remove_node_edges (g : Graph) (n : ℕ) (e : ℕ × ℕ × EdgeData) :
    e ∈ (remove_node g n).edges ↔ e ∈ g.edges ∧ e.1 ≠ n ∧ e.2.1 ≠ n := by
  simp [remove_node]

lemma mem_foldl_remove_node_nodes :
    ∀ (l : List ℕ) (g : Graph) (q : ℕ × ℤ),
      q ∈ (l.foldl remove_node g).nodes ↔ q ∈ g.nodes ∧ q.1 ∉ l := by
  intro l
  induction l with
  | nil => intro g q; simp
  | cons n l ih =>
      intro g q
      simp only [List.foldl_cons]
      rw [ih, mem_remove_node_nodes]
      simp only [List.mem_cons]
      tauto

lemma mem_foldl_remove_node_edges :
    ∀ (l : List ℕ) (g : Graph) (e : ℕ × ℕ × EdgeData),
      e ∈ (l.foldl remove_node g).edges ↔ e ∈ g.edges ∧ e.1 ∉ l ∧ e.2.1 ∉ l := by
  intro l
  induction l with
  | nil => intro g e; simp
  | cons n l ih =>
      intro g e
      simp only [List.foldl_cons]
      rw [ih, mem_remove_node_edges]
      simp only [List.mem_cons]
      tauto

lemma mem_deadIds (g : Graph) (n : ℕ) :
    n ∈ deadIds g ↔ ∃ q ∈ g.nodes, q.1 = n ∧ q.2 ≤ 0 := by
  simp only [deadIds, List.mem_map, List.mem_filter, decide_eq_true_eq]
  constructor
  · rintro ⟨q, ⟨hq, hle⟩, rfl⟩
    exact ⟨q, hq, rfl, hle⟩
  · rintro ⟨q, hq, rfl, hle⟩
    exact ⟨q, ⟨hq, hle⟩, rfl⟩

lemma mem_alive_nodes (g : Graph) (q : ℕ × ℤ) :
    q ∈ (alive_subgraph g).nodes ↔ q ∈ g.nodes ∧ q.1 ∉ deadIds g :=
  mem_foldl_remove_node_nodes (deadIds g) g q

lemma mem_alive_edges (g : Graph) (e : ℕ × ℕ × EdgeData) :
    e ∈ (alive_subgraph g).edges ↔
      e ∈ g.edges ∧ e.1 ∉ deadIds g ∧ e.2.1 ∉ deadIds g :=
  mem_foldl_remove_node_edges (deadIds g) g e

lemma find?_filter_stable {α : Type} (l : List α) (p q : α → Bool)
    (h : ∀ a ∈ l, q a = true → p a = true) :
    (l.filter p).find? q = l.find? q := by
  induction l with
  | nil => rfl
  | cons a l ih =>
      have ih2 := ih (fun b hb => h b (List.mem_cons_of_mem a hb))
      by_cases hq : q a = true
      · have hp := h a (List.mem_cons_self a l) hq
        rw [List.filter_cons, if_pos hp, List.find?_cons, List.find?_cons, hq]
      · have hq2 : q a = false := Bool.eq_false_iff.mpr hq
        by_cases hp : p a = true
        · rw [List.filter_cons, if_pos hp, List.find?_cons, List.find?_cons, hq2]
          exact ih2
        · have hp2 : p a = false := Bool.eq_false_iff.mpr hp
          rw [List.filter_cons, if_neg (by simp [hp2]), List.find?_cons, hq2]
          exact ih2

lemma edgeLookup_remove_node (g : Graph) (n u v : ℕ) (d : EdgeData)
    (h : edgeLookup (remove_node g n) u v = some d) :
    edgeLookup g u v = some d := by
  simp only [edgeLookup, remove_node] at h ⊢
  obtain ⟨e0, hfind, he0⟩ := Option.map_eq_some'.mp h
  have he0mem := List.mem_of_find?_eq_some hfind
  have he0q := List.find?_some hfind
  have hkept := (List.mem_filter.mp he0mem).2
  have hun : u ≠ n ∧ v ≠ n := by
    rcases edgeMatch_cases u v e0 he0q with ⟨h1, h2⟩ | ⟨h1, h2⟩ <;>
      · rw [← h1, ← h2] at *
        simp only [Bool.and_eq_true, Bool.not_eq_true', beq_eq_false_iff_ne, ne_eq] at hkept
        tauto
  have hstable : (g.edges.filter (fun e => !(e.1 == n) && !(e.2.1 == n))).find? (edgeMatch u v)
      = g.edges.find? (edgeMatch u v) := by
    apply find?_filter_stable
    intro a _ hq
    rcases edgeMatch_cases u v a hq with ⟨h1, h2⟩ | ⟨h1, h2⟩ <;>
      simp [h1, h2, hun.1, hun.2]
  rw [hstable] at h
  exact h

lemma edgeLookup_foldl_remove :
    ∀ (l : List ℕ) (g : Graph) (u v : ℕ) (d : EdgeData),
      edgeLookup (l.foldl remove_node g) u v = some d → edgeLookup g u v = some d := by
  intro l
  induction l with
  | nil => exact fun g u v d h => h
  | cons n l ih =>
      intro g u v d h
      simp only [List.foldl_cons] at h
      exact edgeLookup_remove_node g n u v d (ih (remove_node g n) u v d h)

lemma edgeLookup_alive (g : Graph) (u v : ℕ) (d : EdgeData)
    (h : edgeLookup (alive_subgraph g) u v = some d) :
    edgeLookup g u v = some d :=
  edgeLookup_foldl_remove (deadIds g) g u v d h

lemma getLast?_cons_of_ne_nil {c : ℕ} {q : List ℕ} (h : q ≠ []) :
    (c :: q).getLast? = q.getLast? := by
  cases q with
  | nil => exact absurd rfl h
  | cons m q2 => simp [List.getLast?_cons_cons]

lemma pathsFrom_sound (g : Graph) (t : ℕ) :
    ∀ (fuel : ℕ) (c : ℕ) (visited : List ℕ) (p : List ℕ),
      p ∈ pathsFrom g t fuel c visited → c ∉ visited →
      p.head? = some c ∧ p.getLast? = some t ∧ p.Nodup ∧
        (∀ x ∈ p, x ∉ visited) ∧ isPathChain g p = true ∧
        (∀ x ∈ p, x = c ∨ ∃ e ∈ g.edges, x = e.1 ∨ x = e.2.1) := by
  intro fuel
  induction fuel with
  | zero => intro c visited p hp; cases hp
  | succ fuel ih =>
      intro c visited p hp hc
      by_cases hct : c = t
      · have hb : (c == t) = true := by simpa using hct
        simp only [pathsFrom, hb, if_true, List.mem_singleton] at hp
        subst hp
        subst hct
        refine ⟨rfl, rfl, List.nodup_singleton c, ?_, rfl, ?_⟩
        · intro x hx
          rw [List.mem_singleton] at hx
          exact hx ▸ hc
        · intro x hx
          rw [List.mem_singleton] at hx
          exact Or.inl hx
      · have hb : (c == t) = false := by simpa using hct
        simp only [pathsFrom, hb, Bool.false_eq_true, if_false, List.mem_flatMap,
          List.mem_map, List.mem_filter] at hp
        obtain ⟨m, ⟨hmnb, hmnv⟩, q, hq, rfl⟩ := hp
        have hmnotin : m ∉ c :: visited := by
          simpa using hmnv
        obtain ⟨hqh, hql, hqnd, hqvis, hqchain, hqend⟩ := ih m (c :: visited) q hq hmnotin
        have hqne : q ≠ [] := by
          intro hnil
          rw [hnil] at hqh
          cases hqh
        have hcq : c ∉ q := fun hcin =>
          (hqvis c hcin) (List.mem_cons_self c visited)
        refine ⟨rfl, ?_, ?_, ?_, ?_, ?_⟩
        · rw [getLast?_cons_of_ne_nil hqne]
          exact hql
        · exact List.nodup_cons.mpr ⟨hcq, hqnd⟩
        · intro x hx
          rcases List.mem_cons.mp hx with rfl | hxq
          · exact hc
          · exact fun hxv => (hqvis x hxq) (List.mem_cons_of_mem c hxv)
        · cases q with
          | nil => exact absurd rfl hqne
          | cons m2 q2 =>
              have hm2 : m2 = m := by
                simpa using hqh
              subst hm2
              have hadj : (edgeLookup g c m2).isSome = true :=
                (adj_iff_mem_neighbors g c m2).mpr hmnb
              simp only [isPathChain, Bool.and_eq_true]
              exact ⟨hadj, hqchain⟩
        · intro x hx
          rcases List.mem_cons.mp hx with rfl | hxq
          · exact Or.inl rfl
          · rcases hqend x hxq with rfl | hend
            · obtain ⟨e, he, hm⟩ := (mem_neighbors_iff g c x).mp hmnb
              rcases edgeMatch_cases c x e hm with ⟨h1, h2⟩ | ⟨h1, h2⟩
              · exact Or.inr ⟨e, he, Or.inr h2.symm⟩
              · exact Or.inr ⟨e, he, Or.inl h1.symm⟩
            · exact Or.inr hend

lemma pathsFrom_complete (g : Graph) (t : ℕ) :
    ∀ (p : List ℕ) (fuel : ℕ) (c : ℕ) (visited : List ℕ),
      p.head? = some c → p.getLast? = some t → p.Nodup →
      isPathChain g p = true → (∀ x ∈ p, x ∉ visited) → p.length ≤ fuel →
      p ∈ pathsFrom g t fuel c visited := by
  intro p
  induction p with
  | nil => intro fuel c visited hh; cases hh
  | cons a q ih =>
      intro fuel c visited hh hl hnd hchain hvis hlen
      have hac : a = c := by simpa using hh
      subst hac
      cases fuel with
      | zero => simp at hlen
      | succ fuel =>
          by_cases hct : a = t
          · have hqnil : q = [] := by
              cases q with
              | nil => rfl
              | cons m q2 =>
                  exfalso
                  have hlast : (m :: q2).getLast? = some t := by
                    rw [← getLast?_cons_of_ne_nil (List.cons_ne_nil m q2)]
                    exact hl
                  have ht_mem : t ∈ m :: q2 :=
                    List.mem_of_mem_getLast? (show t ∈ (m :: q2).getLast? by simp [hlast])
                  have : a ∉ m :: q2 := (List.nodup_cons.mp hnd).1
                  exact this (hct ▸ ht_mem)
            subst hqnil
            have hb : (a == t) = true := by simpa using hct
            simp only [pathsFrom, hb, if_true, List.mem_singleton]
            rw [hct]
          · have hb : (a == t) = false := by simpa using hct
            cases q with
            | nil =>
                exfalso
                have : a = t := by simpa using hl
                exact hct this
            | cons m q2 =>
                simp only [pathsFrom, hb, Bool.false_eq_true, if_false, List.mem_flatMap,
                  List.mem_map, List.mem_filter]
                have hchain2 : (edgeLookup g a m).isSome = true ∧ isPathChain g (m :: q2) = true := by
                  simpa only [isPathChain, Bool.and_eq_true] using hchain
                have hmn : m ∈ neighbors g a := (adj_iff_mem_neighbors g a m).mp hchain2.1
                have hma : m ≠ a := by
                  intro hma
                  exact (List.nodup_cons.mp hnd).1 (hma ▸ List.mem_cons_self m q2)
                have hmv : m ∉ visited := hvis m (List.mem_cons_of_mem a (List.mem_cons_self m q2))
                have hmav : m ∉ a :: visited := by
                  intro hx
                  rcases List.mem_cons.mp hx with h | h
                  · exact hma h
                  · exact hmv h
                refine ⟨m, ⟨hmn, by simpa using hmav⟩, (m :: q2), ?_, rfl⟩
                apply ih fuel m (a :: visited) rfl
                · rw [← getLast?_cons_of_ne_nil (List.cons_ne_nil m q2)]
                  exact hl
                · exact (List.nodup_cons.mp hnd).2
                · exact hchain2.2
                · intro x hx hxav
                  rcases List.mem_cons.mp hxav with rfl | hxv
                  · exact (List.nodup_cons.mp hnd).1 hx
                  · exact hvis x (List.mem_cons_of_mem a hx) hxv
                · simpa using Nat.le_of_succ_le_succ hlen

lemma wellFormed_alive (g : Graph) (hw : wellFormed g) :
    wellFormed (alive_subgraph g) := by
  intro e he
  obtain ⟨heg, h1, h2⟩ := (mem_alive_edges g e).mp he
  obtain ⟨hm1, hm2⟩ := hw e heg
  constructor
  · obtain ⟨q, hq, hq1⟩ := List.mem_map.mp hm1
    exact List.mem_map.mpr ⟨q, (mem_alive_nodes g q).mpr ⟨hq, hq1 ▸ h1⟩, hq1⟩
  · obtain ⟨q, hq, hq1⟩ := List.mem_map.mp hm2
    exact List.mem_map.mpr ⟨q, (mem_alive_nodes g q).mpr ⟨hq, hq1 ▸ h2⟩, hq1⟩

lemma simplePaths_valid (g : Graph) (hw : wellFormed g) (s t : ℕ) (p : List ℕ)
    (hs : s ∈ nodeIds g) (hp : p ∈ simplePaths g s t) : validPath g s t p := by
  obtain ⟨hh, hl, hnd, _, hchain, hend⟩ :=
    pathsFrom_sound g t (g.nodes.length + 1) s [] p hp (List.not_mem_nil s)
  refine ⟨hh, hl, hnd, ?_, hchain⟩
  intro x hx
  rcases hend x hx with rfl | ⟨e, he, hend2⟩
  · exact hs
  · rcases hend2 with rfl | rfl
    · exact (hw e he).1
    · exact (hw e he).2

lemma valid_mem_simplePaths (g : Graph) (s t : ℕ) (p : List ℕ)
    (h : validPath g s t p) : p ∈ simplePaths g s t := by
  obtain ⟨hh, hl, hnd, hmem, hchain⟩ := h
  apply pathsFrom_complete g t p (g.nodes.length + 1) s [] hh hl hnd hchain
    (fun x _ => List.not_mem_nil x)
  have hsub : p ⊆ nodeIds g := fun x hx => hmem x hx
  have := (hnd.subperm hsub).length_le
  have hlen : (nodeIds g).length = g.nodes.length := List.length_map g.nodes Prod.fst
  omega

lemma not_mem_of_minBy_simplePaths (g : Graph) (s t n : ℕ) (p : List ℕ)
    (f : List ℕ → ℚ) (hdead : n ∈ deadIds g)
    (hs : s ∈ nodeIds (alive_subgraph g))
    (hp : minBy f (simplePaths (alive_subgraph g) s t) = some p) : n ∉ p := by
  intro hnp
  have hmem := minBy_mem f _ p hp
  obtain ⟨_, _, _, _, _, hend⟩ :=
    pathsFrom_sound (alive_subgraph g) t ((alive_subgraph g).nodes.length + 1) s [] p hmem
      (List.not_mem_nil s)
  rcases hend n hnp with rfl | ⟨e, he, hend2⟩
  · apply List.mem_map.mp hs |>.elim
    intro q hq
    obtain ⟨hqag, hq1⟩ := hq
    have := ((mem_alive_nodes g q).mp hqag).2
    exact this (hq1 ▸ hdead)
  · obtain ⟨_, h1, h2⟩ := (mem_alive_edges g e).mp he
    rcases hend2 with rfl | rfl
    · exact h1 hdead
    · exact h2 hdead

lemma dead_of_energy_zero (g : Graph) (n : ℕ) (hn : energyOf g n = some 0) :
    n ∈ deadIds g := by
  simp only [energyOf, energyOfL] at hn
  obtain ⟨q0, hfind, hsnd⟩ := Option.map_eq_some'.mp hn
  have hmem := List.mem_of_find?_eq_some hfind
  have hq1 : q0.1 = n := by simpa using List.find?_some hfind
  exact (mem_deadIds g n).mpr ⟨q0, hmem, hq1, le_of_eq hsnd⟩

/-- C1: alive-only routing — for every topology and node `n` of energy 0,
no path returned by shortest_path_distance or shortest_path_energy
contains `n`; moreover the alive subgraph both queries operate on contains
only nodes of positive energy and only edges both of whose endpoints have
positive energy. -/
theorem alive_only_routing (g : Graph) (n s t : ℕ) (p : List ℕ)
    (hn : energyOf g n = some 0) :
    (shortest_path_distance g s t = some p → n ∉ p) ∧
    (shortest_path_energy g s t = some p → n ∉ p) ∧
    (∀ q ∈ (alive_subgraph g).nodes, q ∈ g.nodes ∧ 0 < q.2) ∧
    (∀ e ∈ (alive_subgraph g).edges, e ∈ g.edges ∧
      ∀ q ∈ g.nodes, (q.1 = e.1 ∨ q.1 = e.2.1) → 0 < q.2) := by
  have hdead := dead_of_energy_zero g n hn
  refine ⟨?_, ?_, ?_, ?_⟩
  · intro h
    simp only [shortest_path_distance] at h
    split at h
    · next hguard => exact not_mem_of_minBy_simplePaths g s t n p _ hdead hguard.1 h
    · cases h
  · intro h
    simp only [shortest_path_energy] at h
    split at h
    · next hguard => exact not_mem_of_minBy_simplePaths g s t n p _ hdead hguard.1 h
    · cases h
  · intro q hq
    obtain ⟨hqg, hqd⟩ := (mem_alive_nodes g q).mp hq
    refine ⟨hqg, ?_⟩
    by_contra hle
    exact hqd ((mem_deadIds g q.1).mpr ⟨q, hqg, rfl, le_of_not_lt hle⟩)
  · intro e he
    obtain ⟨heg, h1, h2⟩ := (mem_alive_edges g e).mp he
    refine ⟨heg, ?_⟩
    intro q hq hqe
    by_contra hle
    rcases hqe with hq1 | hq1
    · exact h1 ((mem_deadIds g e.1).mpr ⟨q, hq, hq1, le_of_not_lt hle⟩)
    · exact h2 ((mem_deadIds g e.2.1).mpr ⟨q, hq, hq1, le_of_not_lt hle⟩)

lemma minBy_simplePaths_none_iff (g : Graph) (hw : wellFormed g) (s t : ℕ)
    (f : List ℕ → ℚ) :
    (if s ∈ nodeIds (alive_subgraph g) ∧ t ∈ nodeIds (alive_subgraph g) then
        minBy f (simplePaths (alive_subgraph g) s t)
      else none) = none ↔
    (s ∉ nodeIds (alive_subgraph g) ∨ t ∉ nodeIds (alive_subgraph g) ∨
      ∀ p, ¬ validPath (alive_subgraph g) s t p) := by
  have hwag := wellFormed_alive g hw
  split
  · next hguard =>
      rw [minBy_eq_none]
      constructor
      · intro hnil
        refine Or.inr (Or.inr ?_)
        intro p hvalid
        have := valid_mem_simplePaths (alive_subgraph g) s t p hvalid
        rw [hnil] at this
        cases this
      · intro hcases
        rcases hcases with h | h | h
        · exact absurd hguard.1 h
        · exact absurd hguard.2 h
        · rw [List.eq_nil_iff_forall_not_mem]
          intro p hp
          exact h p (simplePaths_valid (alive_subgraph g) hwag s t p hguard.1 hp)
  · next hguard =>
      simp only [true_iff]
      rcases Decidable.not_and_iff_or_not.mp hguard with h | h
      · exact Or.inl h
      · exact Or.inr (Or.inl h)

lemma minBy_simplePaths_valid (g : Graph) (hw : wellFormed g) (s t : ℕ)
    (f : List ℕ → ℚ) (p : List ℕ)
    (h : (if s ∈ nodeIds (alive_subgraph g) ∧ t ∈ nodeIds (alive_subgraph g) then
        minBy f (simplePaths (alive_subgraph g) s t)
      else none) = some p) :
    validPath (alive_subgraph g) s t p := by
  have hwag := wellFormed_alive g hw
  split at h
  · next hguard =>
      exact simplePaths_valid (alive_subgraph g) hwag s t p hguard.1 (minBy_mem f _ p h)
  · cases h

/-- C2: NoRoute condition — both shortest-path queries return the NoRoute
outcome (`none`) exactly when the source or the target is missing from the
alive subgraph or no path inside the alive subgraph connects them, and in
every other case they return a path from the source to the target through
the alive subgraph. -/
theorem no_route_characterization (g : Graph) (s t : ℕ) (hw : wellFormed g) :
    (shortest_path_distance g s t = none ↔
      (s ∉ nodeIds (alive_subgraph g) ∨ t ∉ nodeIds (alive_subgraph g) ∨
        ∀ p, ¬ validPath (alive_subgraph g) s t p)) ∧
    (shortest_path_energy g s t = none ↔
      (s ∉ nodeIds (alive_subgraph g) ∨ t ∉ nodeIds (alive_subgraph g) ∨
        ∀ p, ¬ validPath (alive_subgraph g) s t p)) ∧
    (∀ p, shortest_path_distance g s t = some p →
      validPath (alive_subgraph g) s t p) ∧
    (∀ p, shortest_path_energy g s t = some p →
      validPath (alive_subgraph g) s t p) := by
  refine ⟨?_, ?_, ?_, ?_⟩
  · simpa only [shortest_path_distance] using minBy_simplePaths_none_iff g hw s t _
  · simpa only [shortest_path_energy] using minBy_simplePaths_none_iff g hw s t _
  · intro p h
    simp only [shortest_path_distance] at h
    exact minBy_simplePaths_valid g hw s t _ p h
  · intro p h
    simp only [shortest_path_energy] at h
    exact minBy_simplePaths_valid g hw s t _ p h

lemma energy_cost_cons (g : Graph) (u v : ℕ) (rest : List ℕ) :
    energy_cost g (u :: v :: rest) =
      edgeAttr g u v EdgeData.energy_cost + energy_cost g (v :: rest) := by
  simp only [energy_cost, List.tail_cons, List.zip_cons_cons, List.foldl_cons]
  rw [foldl_add_shift, zero_add]

lemma energy_cost_eq_pathWeight (g : Graph) (p : List ℕ)
    (hchain : isPathChain (alive_subgraph g) p = true) :
    energy_cost g p = pathWeight (alive_subgraph g) (fun d => d.energy_cost) p := by
  induction p with
  | nil => rfl
  | cons u rest ih =>
      cases rest with
      | nil => rfl
      | cons v rest2 =>
          have hchain2 : (edgeLookup (alive_subgraph g) u v).isSome = true ∧
              isPathChain (alive_subgraph g) (v :: rest2) = true := by
            simpa only [isPathChain, Bool.and_eq_true] using hchain
          obtain ⟨d, hd⟩ := Option.isSome_iff_exists.mp hchain2.1
          have hg : edgeLookup g u v = some d := edgeLookup_alive g u v d hd
          rw [energy_cost_cons]
          simp only [pathWeight, hd]
          rw [ih hchain2.2]
          congr 1
          simp [edgeAttr, hg]

/-- C6: energy-path admissibility — whenever both queries succeed for the
same source and target, the energy cost of the path returned by
shortest_path_energy is at most the energy cost of the path returned by
shortest_path_distance. -/
theorem energy_path_admissibility (g : Graph) (s t : ℕ) (pd pe : List ℕ)
    (hd : shortest_path_distance g s t = some pd)
    (he : shortest_path_energy g s t = some pe) :
    energy_cost g pe ≤ energy_cost g pd := by
  simp only [shortest_path_distance] at hd
  simp only [shortest_path_energy] at he
  split at hd
  · next hguard =>
      rw [if_pos hguard] at he
      have hpd_mem := minBy_mem _ _ pd hd
      have hpe_le := minBy_le _ _ pe he pd hpd_mem
      have hpd_chain : isPathChain (alive_subgraph g) pd = true :=
        (pathsFrom_sound (alive_subgraph g) t _ s [] pd hpd_mem (List.not_mem_nil s)).2.2.2.2.1
      have hpe_chain : isPathChain (alive_subgraph g) pe = true :=
        (pathsFrom_sound (alive_subgraph g) t _ s [] pe (minBy_mem _ _ pe he)
          (List.not_mem_nil s)).2.2.2.2.1
      rw [energy_cost_eq_pathWeight g pd hpd_chain, energy_cost_eq_pathWeight g pe hpe_chain]
      exact hpe_le
  · cases hd

/-- C9: path cost aggregation — distance_cost and energy_cost equal the
sum of the corresponding edge attribute over the consecutive pairs of the
path, and both return 0 on a single-node path. -/
theorem path_cost_aggregation (g : Graph) (p : List ℕ) (x : ℕ)
    (hp : isPathChain g p = true) :
    distance_cost g p =
      ((p.zip p.tail).map (fun uv => edgeAttr g uv.1 uv.2 EdgeData.distance)).sum ∧
    energy_cost g p =
      ((p.zip p.tail).map (fun uv => edgeAttr g uv.1 uv.2 EdgeData.energy_cost)).sum ∧
    distance_cost g [x] = 0 ∧ energy_cost g [x] = 0 := by
  refine ⟨?_, ?_, rfl, rfl⟩
  · simp only [distance_cost]
    exact foldl_add_eq_sum _ _
  · simp only [energy_cost]
    exact foldl_add_eq_sum _ _

/-- Instantiation of C3 at a concrete topology, path and packet size. -/
theorem battery_drain_rule_witness :
    ([0, 1] : List ℕ).Nodup ∧ (0 : ℕ) ∈ ([0, 1] : List ℕ) ∧ energyOf GW1 0 = some 80 ∧
    (energyOf (apply_battery_drain GW1 [0, 1] 1) 0 = some (max 0 (80 - drain_of 1)) ∧
      drain_of 1 = 2 ∧ drain_of 5 = 10 ∧ drain_of 10 = 20 ∧
      max 0 ((3 : ℤ) - drain_of 1) = 1 ∧ max 0 ((1 : ℤ) - drain_of 1) = 0 ∧
      max 0 ((0 : ℤ) - drain_of 1) = 0) :=
  ⟨by decide, by decide, by decide,
    battery_drain_rule GW1 [0, 1] 1 0 80 (by decide) (by decide) (by decide)⟩

/-- Instantiation of C4 at a concrete topology, path and node. -/
theorem node_energy_invariant_witness :
    energyOf GW1 0 = some 80 ∧ (0 : ℤ) ≤ 80 ∧
    ((∃ e2, energyOf (apply_battery_drain GW1 [0, 1] 1) 0 = some e2 ∧
        0 ≤ e2 ∧ e2 ≤ 80 ∧ ((80 : ℤ) = 0 → e2 = 0) ∧ ((80 : ℤ) ≤ 100 → e2 ≤ 100)) ∧
      (∃ e2, energyOf (fail_random_node GW1 0).2 0 = some e2 ∧
        0 ≤ e2 ∧ e2 ≤ 80 ∧ ((80 : ℤ) = 0 → e2 = 0) ∧ ((80 : ℤ) ≤ 100 → e2 ≤ 100))) :=
  ⟨by decide, by decide,
    node_energy_invariant GW1 [0, 1] 1 0 0 80 (by decide) (by decide)⟩

/-- Instantiation of C7: the all-dead sentinel case at GW7 and the
successful case at GW1. -/
theorem fail_random_node_spec_witness :
    fail_random_node GW7 3 = (none, GW7) ∧
    (∃ m, (fail_random_node GW1 1).1 = some m ∧
      (∃ q ∈ GW1.nodes, q.1 = m ∧ 0 < q.2) ∧
      (fail_random_node GW1 1).2.edges = GW1.edges ∧
      nodeIds (fail_random_node GW1 1).2 = nodeIds GW1 ∧
      energyOf (fail_random_node GW1 1).2 m = some 0 ∧
      (∀ k, k ≠ m → energyOf (fail_random_node GW1 1).2 k = energyOf GW1 k)) :=
  ⟨(fail_random_node_spec GW7 3).1 (by decide),
    (fail_random_node_spec GW1 1).2 (by decide)⟩

/-- Instantiation of C1 at a topology whose node 2 is dead. -/
theorem alive_only_routing_witness :
    energyOf GW1 2 = some 0 ∧
    ((shortest_path_distance GW1 0 1 = some [0, 1] → 2 ∉ ([0, 1] : List ℕ)) ∧
      (shortest_path_energy GW1 0 1 = some [0, 1] → 2 ∉ ([0, 1] : List ℕ)) ∧
      (∀ q ∈ (alive_subgraph GW1).nodes, q ∈ GW1.nodes ∧ 0 < q.2) ∧
      (∀ e ∈ (alive_subgraph GW1).edges, e ∈ GW1.edges ∧
        ∀ q ∈ GW1.nodes, (q.1 = e.1 ∨ q.1 = e.2.1) → 0 < q.2)) :=
  ⟨by decide, alive_only_routing GW1 2 0 1 [0, 1] (by decide)⟩

/-- Instantiation of C2 at a concrete well-formed topology. -/
theorem no_route_characterization_witness :
    wellFormed GW1 ∧
    ((shortest_path_distance GW1 0 2 = none ↔
        (0 ∉ nodeIds (alive_subgraph GW1) ∨ 2 ∉ nodeIds (alive_subgraph GW1) ∨
          ∀ p, ¬ validPath (alive_subgraph GW1) 0 2 p)) ∧
      (shortest_path_energy GW1 0 2 = none ↔
        (0 ∉ nodeIds (alive_subgraph GW1) ∨ 2 ∉ nodeIds (alive_subgraph GW1) ∨
          ∀ p, ¬ validPath (alive_subgraph GW1) 0 2 p)) ∧
      (∀ p, shortest_path_distance GW1 0 2 = some p →
        validPath (alive_subgraph GW1) 0 2 p) ∧
      (∀ p, shortest_path_energy GW1 0 2 = some p →
        validPath (alive_subgraph GW1) 0 2 p)) :=
  ⟨by decide, no_route_characterization GW1 0 2 (by decide)⟩

/-- Instantiation of C6 at a topology where both queries succeed. -/
theorem energy_path_admissibility_witness :
    shortest_path_distance GW6 0 1 = some [0, 1] ∧
    shortest_path_energy GW6 0 1 = some [0, 1] ∧
    energy_cost GW6 [0, 1] ≤ energy_cost GW6 [0, 1] :=
  ⟨by decide, by decide,
    energy_path_admissibility GW6 0 1 [0, 1] [0, 1] (by decide) (by decide)⟩

/-- Instantiation of C9 at a concrete chained path. -/
theorem path_cost_aggregation_witness :
    isPathChain GW1 [0, 1, 2] = true ∧
    (distance_cost GW1 [0, 1, 2] =
        ((([0, 1, 2] : List ℕ).zip ([0, 1, 2] : List ℕ).tail).map
          (fun uv => edgeAttr GW1 uv.1 uv.2 EdgeData.distance)).sum ∧
      energy_cost GW1 [0, 1, 2] =
        ((([0, 1, 2] : List ℕ).zip ([0, 1, 2] : List ℕ).tail).map
          (fun uv => edgeAttr GW1 uv.1 uv.2 EdgeData.energy_cost)).sum ∧
      distance_cost GW1 [5] = 0 ∧ energy_cost GW1 [5] = 0) :=
  ⟨by decide, path_cost_aggregation GW1 [0, 1, 2] 5 (by decide)⟩
